import Mathlib

/-!
Verification development for the Wikipedia section-transform proxy.

The definitions below are a shallow embedding of the Python sources:
`src/html_processing.py` (URL rewriting, section segmentation,
classification, batch codec, task dispatch and the `process_html`
gate), `src/llm.py` (token budget) and the legacy
`wikipedia_proxy.py` URL rewriter.  Strings are `List Char`; bytes are
`List Nat`; a Python function that can raise is embedded with an
`Option` result (`none` = an exception propagates).
-/

set_option maxHeartbeats 1000000

/-- HTML/payload strings are lists of characters. -/
abbrev Str := List Char

/-- The pattern `P` occurs in `s` at position `p` (the `P.length` characters
of `s` starting at index `p` are exactly `P`). -/
def Occ (P s : Str) (p : Nat) : Prop := (s.drop p).take P.length = P

instance (P s : Str) (p : Nat) : Decidable (Occ P s p) := by
  unfold Occ; infer_instance

/-- Python `s.find(nd)`: index of the first occurrence of `nd` in `s`,
`none` when absent (Python returns `-1`). -/
def str_find (nd : Str) : Str → Option Nat
  | [] => if nd = [] then some 0 else none
  | c :: rest =>
    if nd.isPrefixOf (c :: rest) then some 0
    else (str_find nd rest).map (· + 1)

/-- Python `nd in s`. -/
def str_contains (nd s : Str) : Bool := (str_find nd s).isSome

/-- Python `s.split(sep, 1)` (for a non-empty separator). -/
def py_split1 (sep s : Str) : List Str :=
  match str_find sep s with
  | none => [s]
  | some p => [s.take p, s.drop (p + sep.length)]

theorem occ_zero_iff (nd s : Str) : Occ nd s 0 ↔ nd.isPrefixOf s = true := by
  rw [List.isPrefixOf_iff_prefix, List.prefix_iff_eq_take]
  unfold Occ
  simp [eq_comm]

theorem occ_succ_iff (nd s : Str) (c : Char) (p : Nat) :
    Occ nd (c :: s) (p + 1) ↔ Occ nd s p := by
  unfold Occ
  rw [List.drop_succ_cons]

theorem str_find_occ {nd s : Str} {p : Nat} (h : str_find nd s = some p) :
    Occ nd s p := by
  induction s generalizing p with
  | nil =>
    unfold str_find at h
    split at h
    · simp_all [Occ]
    · simp at h
  | cons c rest ih =>
    unfold str_find at h
    split at h
    · rename_i hpre
      cases h
      exact (occ_zero_iff _ _).mpr hpre
    · rcases Option.map_eq_some'.mp h with ⟨q, hq, rfl⟩
      exact (occ_succ_iff _ _ _ _).mpr (ih hq)

theorem str_find_min {nd s : Str} {p : Nat} (h : str_find nd s = some p)
    {q : Nat} (hq : q < p) : ¬ Occ nd s q := by
  induction s generalizing p q with
  | nil =>
    unfold str_find at h
    split at h
    · simp at h; omega
    · simp at h
  | cons c rest ih =>
    unfold str_find at h
    split at h
    · cases h; omega
    · rename_i hpre
      rcases Option.map_eq_some'.mp h with ⟨r, hr, rfl⟩
      cases q with
      | zero =>
        intro hocc
        exact hpre ((occ_zero_iff _ _).mp hocc)
      | succ q' =>
        rw [occ_succ_iff]
        exact ih hr (by omega)

theorem str_find_none {nd s : Str} (h : str_find nd s = none) (p : Nat) :
    ¬ Occ nd s p := by
  induction s generalizing p with
  | nil =>
    unfold str_find at h
    split at h
    · simp at h
    · rename_i hnd
      intro hocc
      unfold Occ at hocc
      simp at hocc
      exact hnd hocc
  | cons c rest ih =>
    unfold str_find at h
    split at h
    · simp at h
    · rename_i hpre
      simp only [Option.map_eq_none'] at h
      cases p with
      | zero => intro hocc; exact hpre ((occ_zero_iff _ _).mp hocc)
      | succ p' => rw [occ_succ_iff]; exact ih h p'

theorem str_find_isSome {nd s : Str} {p : Nat} (h : Occ nd s p) :
    (str_find nd s).isSome := by
  cases hf : str_find nd s with
  | none => exact absurd h (str_find_none hf p)
  | some q => rfl

/-- When `nd` occurs in `s` only at `q`, `find` returns `q`. -/
theorem str_find_of_unique {nd s : Str} {q : Nat} (h : Occ nd s q)
    (hu : ∀ p, Occ nd s p → p = q) : str_find nd s = some q := by
  cases hf : str_find nd s with
  | none => exact absurd h (str_find_none hf q)
  | some p => rw [hu p (str_find_occ hf)]

theorem occ_bound {nd s : Str} {p : Nat} (hnd : nd ≠ []) (h : Occ nd s p) :
    p + nd.length ≤ s.length := by
  unfold Occ at h
  have hp : p ≤ s.length := by
    by_contra hc
    push_neg at hc
    rw [List.drop_eq_nil_of_le (le_of_lt hc)] at h
    simp at h
    exact hnd h
  have hlen := congrArg List.length h
  simp [List.length_take, List.length_drop] at hlen
  omega

/-- Python `s.split(sep)` (full split, non-empty separator). -/
def py_split (sep s : Str) : List Str :=
  if hsep : sep = [] then [s]
  else
    match hf : str_find sep s with
    | none => [s]
    | some p => s.take p :: py_split sep (s.drop (p + sep.length))
termination_by s.length
decreasing_by
  have hocc := str_find_occ hf
  have := occ_bound hsep hocc
  have hpos : 0 < sep.length := List.length_pos.mpr hsep
  simp [List.length_drop]
  omega

/-- The marker core substring used by the batch codec. -/
def KMARK : Str := "SECTION_BREAK".toList

/-- The literal separator `f"<!-- SECTION_BREAK_{i} -->"` (the ordinal is a
Python int, so it may be negative). -/
def sep_mark (i : Int) : Str := ("<!-- SECTION_BREAK_" ++ toString i ++ " -->").toList

/-- One iteration of the `for i in range(num_sections)` loop of
`split_batch_result` (html_processing.py, lines 116-136). -/
def sbr_step (combined_html : Str) (num_sections : Nat) (sections : List Str) (i : Nat) : List Str :=
  let separator := sep_mark (i : Int)
  if str_contains separator combined_html then
    if i = 0 then
      sections ++ [(py_split1 separator combined_html).headI]
    else
      let prev_separator := sep_mark ((i : Int) - 1)
      if str_contains prev_separator combined_html then
        let start_idx := (str_find prev_separator combined_html).getD 0 + prev_separator.length
        let end_idx := (str_find separator combined_html).getD 0
        sections ++ [(combined_html.take end_idx).drop start_idx]
      else sections
  else if i = num_sections - 1 then
    let last_separator := sep_mark ((i : Int) - 1)
    if str_contains last_separator combined_html then
      let parts := py_split1 last_separator combined_html
      if 1 < parts.length then sections ++ [parts.getD 1 []] else sections
    else sections
  else sections

/-- Model of `split_batch_result` (html_processing.py, lines 104-138). -/
def split_batch_result (combined_html : Str) (num_sections : Nat) : List Str :=
  (List.range num_sections).foldl (sbr_step combined_html num_sections) []

/-- The tail of the batch payload: each later section's HTML prefixed with
its marker, ordinals `d, d+1, ...` (the source computes the ordinal as
`len(batch_html_parts) - 1` just before appending, lines 260-267). -/
def batch_chunks (d : Nat) : List Str → Str
  | [] => []
  | s :: rest => sep_mark (d : Int) ++ s ++ batch_chunks (d + 1) rest

/-- The combined batch payload `''.join(batch_html_parts)`
(html_processing.py lines 256-273). -/
def encode_batch : List Str → Str
  | [] => []
  | s :: rest => s ++ batch_chunks 0 rest

/-- Skip-list of boilerplate headings (html_processing.py lines 17-22). -/
def SKIP_SECTIONS : List String :=
  ["references", "notes", "bibliography", "citations", "footnotes",
   "external links", "see also", "further reading",
   "sources", "works cited", "general references",
   "general bibliography", "selected bibliography"]

/-- Skip sections with fewer than 50 visible characters. -/
def TINY_SECTION_THRESHOLD : Nat := 50

/-- Batch sections with fewer than 500 visible characters. -/
def SMALL_SECTION_THRESHOLD : Nat := 500

/-- Model of `should_skip_section` (html_processing.py lines 79-101).
`vis_len` abstracts `len(BeautifulSoup(html).get_text(strip=True))`, the
count of visible text characters of an HTML string. -/
def should_skip_section (vis_len : Str → Nat) (heading_text : String) (html_content : Str) : Bool :=
  if SKIP_SECTIONS.contains heading_text then true
  else if vis_len html_content < TINY_SECTION_THRESHOLD then true
  else false

/-- Hard output-token ceiling of the model (llm.py line 13). -/
def MAX_MODEL_TOKENS : Nat := 64000

/-- Model of `calculate_max_tokens` (llm.py lines 70-78).  The Python code
computes `min(int((len(text) // 4) * 1.5), 64000)`; multiplying an integer
float-exactly by 1.5 and truncating equals `3 * m / 2` in integer
arithmetic, which is how the float step is embedded. -/
def calculate_max_tokens (input_text : Str) : Nat :=
  let estimated_input_tokens := input_text.length / 4
  min (3 * estimated_input_tokens / 2) MAX_MODEL_TOKENS

/-- If `B` occurs inside `A` at `q` and `A` occurs in `s` at `p`, then `B`
occurs in `s` at `p + q`. -/
theorem occ_trans {A B s : Str} {p q : Nat} (hB : B ≠ [])
    (hA : Occ A s p) (hq : Occ B A q) : Occ B s (p + q) := by
  have hbound := occ_bound hB hq
  unfold Occ at *
  rw [← List.drop_drop]
  have hsplit : s.drop p = A ++ (s.drop p).drop A.length := by
    conv_lhs => rw [← List.take_append_drop A.length (s.drop p)]
    rw [hA]
  rw [hsplit, List.drop_append_eq_append_drop, List.take_append_eq_append_take]
  have h1 : (A.drop q).length = A.length - q := by simp
  have h2 : B.length - (A.drop q).length = 0 := by omega
  rw [h2, List.take_zero, List.append_nil]
  exact hq

/-- The marker core occurs at offset 5 of every separator. -/
theorem occ_K_in_sep (i : Int) : Occ KMARK (sep_mark i) 5 := by
  show ((sep_mark i).drop 5).take KMARK.length = KMARK
  have hrw : sep_mark i =
      "<!-- ".toList ++ (KMARK ++ ("_".toList ++ ((toString i).toList ++ " -->".toList))) := by
    unfold sep_mark
    have hs : ("<!-- SECTION_BREAK_" ++ toString i ++ " -->").toList =
        "<!-- SECTION_BREAK_".toList ++ ((toString i).toList ++ " -->".toList) := by
      simp [String.toList, String.data_append]
    rw [hs]
    have hpre : ("<!-- SECTION_BREAK_".toList : Str) = "<!-- ".toList ++ (KMARK ++ "_".toList) := by
      decide
    rw [hpre]
    simp [List.append_assoc]
  rw [hrw]
  rw [show (5 : Nat) = ("<!-- ".toList : Str).length from by decide]
  rw [List.drop_left, List.take_left]

theorem occ_sep_imp_K {i : Int} {s : Str} {p : Nat} (h : Occ (sep_mark i) s p) :
    Occ KMARK s (p + 5) :=
  occ_trans (by decide) h (occ_K_in_sep i)

/-- A pattern longer than the string never occurs in it. -/
theorem no_occ_of_short {nd s : Str} (hnd : nd ≠ []) (hlen : s.length < nd.length)
    (p : Nat) : ¬ Occ nd s p :=
  fun h => absurd (occ_bound hnd h) (by omega)

/-- A string free of the marker core contains no separator. -/
theorem str_contains_sep_eq_false {i : Int} {s : Str}
    (h : ∀ p, ¬ Occ KMARK s p) : str_contains (sep_mark i) s = false := by
  unfold str_contains
  cases hf : str_find (sep_mark i) s with
  | none => rfl
  | some p => exact absurd (occ_sep_imp_K (str_find_occ hf)) (h (p + 5))

/-- C10: for every input string `s`, `calculate_max_tokens s` equals
`min(int((len(s) // 4) * 1.5), 64000)`, and in particular the `max_tokens`
value handed to the transformer never exceeds `MAX_MODEL_TOKENS`. -/
theorem calculate_max_tokens_spec (s : Str) :
    calculate_max_tokens s = min (3 * (s.length / 4) / 2) 64000 ∧
    calculate_max_tokens s ≤ MAX_MODEL_TOKENS := by
  exact ⟨rfl, Nat.min_le_right _ _⟩

/-- C6: a segment whose (lowercased) heading text is in the boilerplate set
is always skipped, regardless of content length; otherwise the segment is
skipped exactly when its visible text length is strictly below 50. -/
theorem should_skip_section_boundary (vis_len : Str → Nat)
    (heading_text : String) (html_content : Str) :
    (SKIP_SECTIONS.contains heading_text = true →
      should_skip_section vis_len heading_text html_content = true) ∧
    (SKIP_SECTIONS.contains heading_text = false →
      (should_skip_section vis_len heading_text html_content = true ↔
        vis_len html_content < 50)) := by
  unfold should_skip_section TINY_SECTION_THRESHOLD
  constructor
  · intro h
    simp [h]
    exact Or.inl (by simpa using h)
  · intro h
    rw [h]
    simp only [Bool.false_eq_true, if_false]
    split
    · rename_i hlt
      simpa using hlt
    · rename_i hlt
      simp [hlt]

/-- Witness for C6: "references" is skipped at any length; 49 visible
characters is skipped and 50 is not. -/
theorem should_skip_section_boundary_witness :
    should_skip_section List.length "references" (List.replicate 500 'a') = true ∧
    should_skip_section List.length "history" (List.replicate 49 'a') = true ∧
    should_skip_section List.length "history" (List.replicate 50 'a') = false := by
  refine ⟨(should_skip_section_boundary List.length "references" _).1 (by decide), ?_, ?_⟩
  · exact ((should_skip_section_boundary List.length "history" _).2 (by decide)).mpr
      (by simp)
  · have h := (should_skip_section_boundary List.length "history"
      (List.replicate 50 'a')).2 (by decide)
    cases hq : should_skip_section List.length "history" (List.replicate 50 'a')
    · rfl
    · have := h.mp hq
      simp at this

/-- C9 counterexample: an input that contains the ordinal-0 marker decodes
with expected count 1 to a one-element list, not the empty list. -/
theorem split_batch_result_one_counterexample :
    split_batch_result ("<!-- SECTION_BREAK_0 -->x".toList) 1 = [[]] ∧
    (split_batch_result ("<!-- SECTION_BREAK_0 -->x".toList) 1).length = 1 := by
  constructor <;> decide

/-- C9 amended: for every input string free of the marker core substring
`SECTION_BREAK`, `split_batch_result combined 1` returns the empty list, so
the count check `len(split_results) != num_sections` fails and the caller
falls back to the original HTML. -/
theorem split_batch_result_one_empty (combined : Str)
    (h : ∀ p, ¬ Occ KMARK combined p) :
    split_batch_result combined 1 = [] ∧
    (split_batch_result combined 1).length ≠ 1 := by
  have hsplit : split_batch_result combined 1 = [] := by
    unfold split_batch_result
    rw [show List.range 1 = [0] from rfl]
    simp only [List.foldl_cons, List.foldl_nil]
    have hs0 : str_contains (sep_mark ((0 : Nat) : Int)) combined = false :=
      str_contains_sep_eq_false h
    have hsm1 : str_contains (sep_mark (((0 : Nat) : Int) - 1)) combined = false :=
      str_contains_sep_eq_false h
    simp only [sbr_step, hs0, hsm1, Bool.false_eq_true, if_false]
    simp
  exact ⟨hsplit, by rw [hsplit]; decide⟩

/-- Witness for C9 amended: a concrete marker-free input decodes to `[]`. -/
theorem split_batch_result_one_empty_witness :
    split_batch_result ['x'] 1 = [] ∧ (split_batch_result ['x'] 1).length ≠ 1 :=
  split_batch_result_one_empty ['x'] (fun p => no_occ_of_short (by decide) (by decide) p)

/-- C3 counterexample: for the singleton list `["a"]` (length 1, content free
of the marker substring) the decode of the encode is `[]`, not `["a"]`. -/
theorem batch_roundtrip_counterexample :
    (∀ s ∈ [(['a'] : Str)], ∀ p, ¬ Occ KMARK s p) ∧
    split_batch_result (encode_batch [(['a'] : Str)]) 1 ≠ [['a']] := by
  constructor
  · intro s hs p
    simp only [List.mem_singleton] at hs
    subst hs
    exact no_occ_of_short (by decide) (by decide) p
  · decide

/-- Pointwise reading of an occurrence. -/
theorem occ_get {P s : Str} {p : Nat} (h : Occ P s p) {j : Nat}
    (hj : j < P.length) : s[p + j]? = P[j]? := by
  unfold Occ at h
  have := congrArg (fun l => l[j]?) h
  simp only at this
  rw [List.getElem?_take, if_pos hj, List.getElem?_drop] at this
  exact this

/-- Decompose an occurrence across an append whose boundary cannot be
crossed: the left part ends, or the right part begins, with a character
absent from the pattern. -/
theorem occ_append_iff {P x y : Str} (hP : P ≠ [])
    (hside : (∀ c, x.getLast? = some c → c ∉ P) ∨ (∀ c, y.head? = some c → c ∉ P))
    (p : Nat) :
    Occ P (x ++ y) p ↔ Occ P x p ∨ (x.length ≤ p ∧ Occ P y (p - x.length)) := by
  constructor
  · intro h
    by_cases hp : x.length ≤ p
    · refine Or.inr ⟨hp, ?_⟩
      unfold Occ at h ⊢
      rw [List.drop_append_eq_append_drop, List.drop_eq_nil_of_le hp,
        List.nil_append] at h
      exact h
    · push_neg at hp
      by_cases hb : p + P.length ≤ x.length
      · refine Or.inl ?_
        unfold Occ at h ⊢
        rw [List.drop_append_eq_append_drop, List.take_append_eq_append_take,
          show p - x.length = 0 from by omega, List.drop_zero,
          show P.length - (x.drop p).length = 0 from by simp; omega,
          List.take_zero, List.append_nil] at h
        exact h
      · exfalso
        push_neg at hb
        have hxne : x ≠ [] := by
          intro hx
          subst hx
          simp at hp
        have hyne : y ≠ [] := by
          intro hy
          subst hy
          have := occ_bound hP h
          simp at this
          omega
        cases hside with
        | inl hL =>
          have hj : x.length - 1 - p < P.length := by omega
          have hg := occ_get h hj
          rw [show p + (x.length - 1 - p) = x.length - 1 from by omega,
            List.getElem?_append, if_pos (by omega)] at hg
          have hlast : x.getLast? = P[x.length - 1 - p]? := by
            rw [List.getLast?_eq_getElem?]
            exact hg
          cases hPj : P[x.length - 1 - p]? with
          | none => rw [hPj] at hlast; simp [List.getElem?_eq_none_iff] at hPj; omega
          | some c =>
            rw [hPj] at hlast
            exact hL c hlast (List.getElem?_mem hPj)
        | inr hR =>
          have hj : x.length - p < P.length := by omega
          have hg := occ_get h hj
          rw [show p + (x.length - p) = x.length from by omega,
            List.getElem?_append, if_neg (by omega),
            show x.length - x.length = 0 from by omega] at hg
          have hhead : y.head? = P[x.length - p]? := by
            rw [List.head?_eq_getElem?]
            exact hg
          cases hPj : P[x.length - p]? with
          | none => rw [hPj] at hhead; simp [List.getElem?_eq_none_iff] at hPj; omega
          | some c =>
            rw [hPj] at hhead
            exact hR c hhead (List.getElem?_mem hPj)
  · intro h
    cases h with
    | inl hx =>
      have hb := occ_bound hP hx
      unfold Occ at hx ⊢
      rw [List.drop_append_eq_append_drop, List.take_append_eq_append_take,
        show p - x.length = 0 from by omega, List.drop_zero,
        show P.length - (x.drop p).length = 0 from by simp; omega,
        List.take_zero, List.append_nil]
      exact hx
    | inr hy =>
      unfold Occ at hy ⊢
      rw [List.drop_append_eq_append_drop, List.drop_eq_nil_of_le hy.1,
        List.nil_append]
      exact hy.2

/-- Structural decomposition of a separator around its marker core. -/
theorem sep_mark_decomp (i : Int) :
    sep_mark i =
      "<!-- ".toList ++ (KMARK ++ ("_".toList ++ ((toString i).toList ++ " -->".toList))) := by
  unfold sep_mark
  have hs : ("<!-- SECTION_BREAK_" ++ toString i ++ " -->").toList =
      "<!-- SECTION_BREAK_".toList ++ ((toString i).toList ++ " -->".toList) := by
    simp [String.toList, String.data_append]
  rw [hs]
  have hpre : ("<!-- SECTION_BREAK_".toList : Str) = "<!-- ".toList ++ (KMARK ++ "_".toList) := by
    decide
  rw [hpre]
  simp [List.append_assoc]

/-- Every separator starts with an angle bracket, which is not a character
of the marker core. -/
theorem sep_mark_head_not_in_K (i : Int) :
    ∀ c, (sep_mark i).head? = some c → c ∉ KMARK := by
  intro c hc
  rw [sep_mark_decomp] at hc
  have : (("<!-- ".toList ++
      (KMARK ++ ("_".toList ++ ((toString i).toList ++ " -->".toList)))).head?) = some '<' := rfl
  rw [this] at hc
  cases hc
  decide

/-- Every separator ends with an angle bracket, which is not a character of
the marker core. -/
theorem sep_mark_getLast (i : Int) : (sep_mark i).getLast? = some '>' := by
  unfold sep_mark
  have hs : ("<!-- SECTION_BREAK_" ++ toString i ++ " -->").toList =
      ("<!-- SECTION_BREAK_".toList ++ (toString i).toList) ++ " -->".toList := by
    simp [String.toList, String.data_append]
  rw [hs, List.getLast?_append_of_ne_nil _ (by decide)]
  decide

theorem sep_mark_getLast_not_in_K (i : Int) :
    ∀ c, (sep_mark i).getLast? = some c → c ∉ KMARK := by
  intro c hc
  rw [sep_mark_getLast] at hc
  cases hc
  decide

/-- Single-digit separators have length 24. -/
theorem sep_length {d : Nat} (hd : d ≤ 9) : (sep_mark (d : Int)).length = 24 := by
  interval_cases d <;> decide

/-- The marker core occurs in a single-digit separator only at offset 5. -/
theorem occ_K_sep_iff {d : Nat} (hd : d ≤ 9) (p : Nat) :
    Occ KMARK (sep_mark (d : Int)) p ↔ p = 5 := by
  constructor
  · intro h
    have hb := occ_bound (by decide : KMARK ≠ []) h
    rw [sep_length hd] at hb
    have hp : p ≤ 11 := by
      have hK : KMARK.length = 13 := by decide
      omega
    interval_cases d <;> interval_cases p <;>
      first
        | rfl
        | exact absurd h (by decide)
  · intro h
    subst h
    exact occ_K_in_sep _

/-- Offsets (into `batch_chunks d parts`) of the marker-core occurrences:
offset 5 inside each separator. -/
def mark_positions (d : Nat) : List Str → List Nat
  | [] => []
  | s :: rest => 5 :: (mark_positions (d + 1) rest).map (· + (24 + s.length))

theorem batch_chunks_head_not_in_K (d : Nat) (parts : List Str) :
    ∀ c, (batch_chunks d parts).head? = some c → c ∉ KMARK := by
  intro c hc
  cases parts with
  | nil => simp [batch_chunks] at hc
  | cons s rest =>
    unfold batch_chunks at hc
    rw [List.append_assoc, List.head?_append] at hc
    cases hsep : (sep_mark (d : Int)).head? with
    | none =>
      exfalso
      rcases sep_mark_decomp (d : Int) ▸ hsep with h
      simp at h
    | some c' =>
      rw [hsep] at hc
      simp at hc
      subst hc
      exact sep_mark_head_not_in_K _ c' hsep

/-- No occurrence of the marker core in the empty string. -/
theorem no_occ_nil (nd : Str) (hnd : nd ≠ []) (p : Nat) : ¬ Occ nd [] p := by
  intro h
  unfold Occ at h
  simp at h
  exact hnd h

/-- Characterization of the marker-core occurrences in a chunk list whose
section contents are marker-free. -/
theorem occ_K_chunks {parts : List Str} {d : Nat} (hd : d + parts.length ≤ 10)
    (hK : ∀ s ∈ parts, ∀ p, ¬ Occ KMARK s p) (p : Nat) :
    Occ KMARK (batch_chunks d parts) p ↔ p ∈ mark_positions d parts := by
  induction parts generalizing d p with
  | nil =>
    simp only [mark_positions, List.not_mem_nil, iff_false]
    exact no_occ_nil _ (by decide) p
  | cons s rest ih =>
    have hd9 : d ≤ 9 := by simp at hd; omega
    have hchunks : batch_chunks d (s :: rest) =
        sep_mark (d : Int) ++ (s ++ batch_chunks (d + 1) rest) := by
      rw [show batch_chunks d (s :: rest) =
        sep_mark (d : Int) ++ s ++ batch_chunks (d + 1) rest from rfl]
      rw [List.append_assoc]
    rw [hchunks]
    rw [occ_append_iff (by decide) (Or.inl (sep_mark_getLast_not_in_K _))]
    rw [occ_append_iff (by decide) (Or.inr (batch_chunks_head_not_in_K _ _))]
    rw [occ_K_sep_iff hd9, sep_length hd9]
    have hKs : ∀ q, ¬ Occ KMARK s q := hK s (by simp)
    have hrest : ∀ t ∈ rest, ∀ q, ¬ Occ KMARK t q := fun t ht q => hK t (by simp [ht]) q
    have hd' : d + 1 + rest.length ≤ 10 := by simp at hd; omega
    rw [show (Occ KMARK s (p - 24)) ↔ False from iff_false_intro (hKs _)]
    simp only [false_or]
    rw [ih hd' hrest]
    simp only [mark_positions, List.mem_cons, List.mem_map]
    constructor
    · rintro (h5 | ⟨h24, hsl, hmem⟩)
      · exact Or.inl h5
      · exact Or.inr ⟨p - 24 - s.length, hmem, by omega⟩
    · rintro (h5 | ⟨q, hq, hqe⟩)
      · exact Or.inl h5
      · refine Or.inr ⟨by omega, by omega, ?_⟩
        rw [show p - 24 - s.length = q from by omega]
        exact hq

/-- Length of the first `j` chunks (marker plus section HTML each) of the
tail of a batch payload. -/
def chunks_pref : List Str → Nat → Nat
  | _, 0 => 0
  | [], _ + 1 => 0
  | s :: rest, j + 1 => 24 + s.length + chunks_pref rest j

theorem chunks_pref_zero (rest : List Str) : chunks_pref rest 0 = 0 := by
  cases rest <;> rfl

theorem chunks_pref_succ {rest : List Str} {j : Nat} (hj : j < rest.length) :
    chunks_pref rest (j + 1) = chunks_pref rest j + 24 + (rest.get ⟨j, hj⟩).length := by
  induction rest generalizing j with
  | nil => simp at hj
  | cons s rest ih =>
    cases j with
    | zero =>
      simp only [chunks_pref, List.get]
      omega
    | succ j' =>
      have hj' : j' < rest.length := by simpa using hj
      show 24 + s.length + chunks_pref rest (j' + 1) = _
      rw [ih hj']
      simp [chunks_pref]
      omega

/-- A marker-core position in a chunk list is offset 5 past a chunk start. -/
theorem mark_positions_iff (d : Nat) (rest : List Str) (p : Nat) :
    p ∈ mark_positions d rest ↔ ∃ j < rest.length, p = chunks_pref rest j + 5 := by
  induction rest generalizing d p with
  | nil => simp [mark_positions]
  | cons s rest ih =>
    simp only [mark_positions, List.mem_cons, List.mem_map]
    constructor
    · rintro (h5 | ⟨q, hq, hqe⟩)
      · exact ⟨0, by simp, by simp [chunks_pref, h5]⟩
      · rcases (ih (d + 1) q).mp hq with ⟨j, hj, hje⟩
        refine ⟨j + 1, by simpa using hj, ?_⟩
        show p = 24 + s.length + chunks_pref rest j + 5
        omega
    · rintro ⟨j, hj, hje⟩
      cases j with
      | zero => exact Or.inl (by simpa [chunks_pref] using hje)
      | succ j' =>
        have hj' : j' < rest.length := by simpa using hj
        refine Or.inr ⟨chunks_pref rest j' + 5, (ih (d + 1) _).mpr ⟨j', hj', rfl⟩, ?_⟩
        have : chunks_pref (s :: rest) (j' + 1) = 24 + s.length + chunks_pref rest j' := rfl
        omega

/-- Dropping the first `j` chunks of a chunk list. -/
theorem batch_chunks_drop {rest : List Str} {d j : Nat} (hj : j < rest.length)
    (hd : d + rest.length ≤ 10) :
    (batch_chunks d rest).drop (chunks_pref rest j) = batch_chunks (d + j) (rest.drop j) := by
  induction j generalizing rest d with
  | zero => simp [chunks_pref]
  | succ j' ih =>
    cases rest with
    | nil => simp at hj
    | cons s rest' =>
      have hd9 : d ≤ 9 := by simp at hd; omega
      have hj' : j' < rest'.length := by simpa using hj
      have hd' : (d + 1) + rest'.length ≤ 10 := by simp at hd; omega
      show (batch_chunks d (s :: rest')).drop (24 + s.length + chunks_pref rest' j') = _
      have hsplit : batch_chunks d (s :: rest') =
          (sep_mark (d : Int) ++ s) ++ batch_chunks (d + 1) rest' := by
        rw [show batch_chunks d (s :: rest') =
          sep_mark (d : Int) ++ s ++ batch_chunks (d + 1) rest' from rfl]
      rw [hsplit, List.drop_append_eq_append_drop]
      have hlen : (sep_mark (d : Int) ++ s).length = 24 + s.length := by
        simp [sep_length hd9]
      rw [List.drop_eq_nil_of_le (by omega), List.nil_append, hlen]
      rw [show 24 + s.length + chunks_pref rest' j' - (24 + s.length) = chunks_pref rest' j'
        from by omega]
      rw [ih hj' hd']
      congr 1
      omega

/-- Distinct single-digit ordinals give distinct separators. -/
theorem sep_mark_inj {i j : Nat} (hi : i ≤ 9) (hj : j ≤ 9)
    (h : sep_mark (i : Int) = sep_mark (j : Int)) : i = j := by
  interval_cases i <;> interval_cases j <;> first | rfl | exact absurd h (by decide)

/-- The ordinal `-1` separator never agrees with a single-digit one on its
first 24 characters. -/
theorem sep_mark_neg_one_take {j : Nat} (hj : j ≤ 9) :
    (sep_mark (-1)).take 24 ≠ sep_mark (j : Int) := by
  interval_cases j <;> decide

/-- The separator of ordinal `j` occurs in the encoded payload at the start
of chunk `j`. -/
theorem occ_sep_enc_start {s₀ : Str} {rest : List Str} {j : Nat}
    (hj : j < rest.length) (hr9 : rest.length ≤ 9) :
    Occ (sep_mark (j : Int)) (s₀ ++ batch_chunks 0 rest)
      (s₀.length + chunks_pref rest j) := by
  unfold Occ
  rw [List.drop_append_eq_append_drop, List.drop_eq_nil_of_le (by omega), List.nil_append,
    show s₀.length + chunks_pref rest j - s₀.length = chunks_pref rest j from by omega]
  rw [batch_chunks_drop hj (by omega)]
  simp only [Nat.zero_add]
  rw [List.drop_eq_getElem_cons hj]
  rw [show batch_chunks j (rest[j] :: rest.drop (j + 1)) =
      sep_mark (j : Int) ++ (rest[j] ++ batch_chunks (j + 1) (rest.drop (j + 1))) from by
    rw [show batch_chunks j (rest[j] :: rest.drop (j + 1)) =
      sep_mark (j : Int) ++ rest[j] ++ batch_chunks (j + 1) (rest.drop (j + 1)) from rfl]
    rw [List.append_assoc]]
  exact List.take_left ..

/-- Dropping past the marker of chunk `j` exposes section `j+1` of the
batch followed by the later chunks. -/
theorem enc_drop_marker {s₀ : Str} {rest : List Str} {j : Nat}
    (hj : j < rest.length) (hr9 : rest.length ≤ 9) :
    (s₀ ++ batch_chunks 0 rest).drop (s₀.length + chunks_pref rest j + 24) =
      rest[j] ++ batch_chunks (j + 1) (rest.drop (j + 1)) := by
  have hj9 : j ≤ 9 := by omega
  rw [show s₀.length + chunks_pref rest j + 24 = s₀.length + (chunks_pref rest j + 24)
    from by omega]
  rw [← List.drop_drop, List.drop_left]
  rw [← List.drop_drop, batch_chunks_drop hj (by omega)]
  simp only [Nat.zero_add]
  rw [List.drop_eq_getElem_cons hj]
  rw [show batch_chunks j (rest[j] :: rest.drop (j + 1)) =
      sep_mark (j : Int) ++ (rest[j] ++ batch_chunks (j + 1) (rest.drop (j + 1))) from by
    rw [show batch_chunks j (rest[j] :: rest.drop (j + 1)) =
      sep_mark (j : Int) ++ rest[j] ++ batch_chunks (j + 1) (rest.drop (j + 1)) from rfl]
    rw [List.append_assoc]]
  rw [show (24 : Nat) = (sep_mark (j : Int)).length from (sep_length hj9).symm, List.drop_left]

/-- Marker-core occurrences in the encoded payload sit at offset 5 of some
chunk start. -/
theorem occ_K_enc {s₀ : Str} {rest : List Str} {p : Nat}
    (hK0 : ∀ q, ¬ Occ KMARK s₀ q) (hKr : ∀ s ∈ rest, ∀ q, ¬ Occ KMARK s q)
    (hr9 : rest.length ≤ 9)
    (h : Occ KMARK (s₀ ++ batch_chunks 0 rest) p) :
    ∃ j < rest.length, p = s₀.length + chunks_pref rest j + 5 := by
  rw [occ_append_iff (by decide) (Or.inr (batch_chunks_head_not_in_K _ _))] at h
  rcases h with h | ⟨hle, h⟩
  · exact absurd h (hK0 p)
  · rw [occ_K_chunks (by omega) hKr] at h
    rcases (mark_positions_iff 0 rest _).mp h with ⟨j, hj, hje⟩
    exact ⟨j, hj, by omega⟩

/-- A single-digit separator occurs in the encoded payload only at its own
chunk start. -/
theorem occ_sep_enc {s₀ : Str} {rest : List Str} {i p : Nat}
    (hK0 : ∀ q, ¬ Occ KMARK s₀ q) (hKr : ∀ s ∈ rest, ∀ q, ¬ Occ KMARK s q)
    (hr9 : rest.length ≤ 9) (hi : i ≤ 9)
    (h : Occ (sep_mark (i : Int)) (s₀ ++ batch_chunks 0 rest) p) :
    i < rest.length ∧ p = s₀.length + chunks_pref rest i := by
  rcases occ_K_enc hK0 hKr hr9 (occ_sep_imp_K h) with ⟨j, hj, hje⟩
  have hp : p = s₀.length + chunks_pref rest j := by omega
  subst hp
  have hstart : Occ (sep_mark (j : Int)) (s₀ ++ batch_chunks 0 rest)
      (s₀.length + chunks_pref rest j) := occ_sep_enc_start hj hr9
  have h1 : ((s₀ ++ batch_chunks 0 rest).drop (s₀.length + chunks_pref rest j)).take 24 =
      sep_mark (i : Int) := by
    have hx := h
    unfold Occ at hx
    rw [sep_length hi] at hx
    exact hx
  have h2 : ((s₀ ++ batch_chunks 0 rest).drop (s₀.length + chunks_pref rest j)).take 24 =
      sep_mark (j : Int) := by
    have hx := hstart
    unfold Occ at hx
    rw [sep_length (by omega)] at hx
    exact hx
  have hij := sep_mark_inj hi (by omega) (h1.symm.trans h2)
  exact ⟨hij ▸ hj, by rw [hij]⟩

/-- The `-1` separator never occurs in the encoded payload. -/
theorem occ_sep_neg_one_enc {s₀ : Str} {rest : List Str} {p : Nat}
    (hK0 : ∀ q, ¬ Occ KMARK s₀ q) (hKr : ∀ s ∈ rest, ∀ q, ¬ Occ KMARK s q)
    (hr9 : rest.length ≤ 9)
    (h : Occ (sep_mark (-1)) (s₀ ++ batch_chunks 0 rest) p) : False := by
  rcases occ_K_enc hK0 hKr hr9 (occ_sep_imp_K h) with ⟨j, hj, hje⟩
  have hp : p = s₀.length + chunks_pref rest j := by omega
  subst hp
  have hstart : Occ (sep_mark (j : Int)) (s₀ ++ batch_chunks 0 rest)
      (s₀.length + chunks_pref rest j) := occ_sep_enc_start hj hr9
  have h1 : ((s₀ ++ batch_chunks 0 rest).drop (s₀.length + chunks_pref rest j)).take 25 =
      sep_mark (-1) := by
    have hx := h
    unfold Occ at hx
    rw [show (sep_mark (-1)).length = 25 from by decide] at hx
    exact hx
  have h2 : ((s₀ ++ batch_chunks 0 rest).drop (s₀.length + chunks_pref rest j)).take 24 =
      sep_mark (j : Int) := by
    have hx := hstart
    unfold Occ at hx
    rw [sep_length (by omega)] at hx
    exact hx
  have h3 : ((s₀ ++ batch_chunks 0 rest).drop (s₀.length + chunks_pref rest j)).take 24 =
      (sep_mark (-1)).take 24 := by
    rw [← h1, List.take_take]
    norm_num
  exact sep_mark_neg_one_take (by omega) (h3.symm.trans h2)

/-- `find` locates separator `i` of an encoded payload at its chunk start. -/
theorem str_find_sep_enc {s₀ : Str} {rest : List Str} {i : Nat}
    (hK0 : ∀ q, ¬ Occ KMARK s₀ q) (hKr : ∀ s ∈ rest, ∀ q, ¬ Occ KMARK s q)
    (hr9 : rest.length ≤ 9) (hi : i < rest.length) :
    str_find (sep_mark (i : Int)) (s₀ ++ batch_chunks 0 rest) =
      some (s₀.length + chunks_pref rest i) :=
  str_find_of_unique (occ_sep_enc_start hi hr9)
    (fun _ hp => (occ_sep_enc hK0 hKr hr9 (by omega) hp).2)

/-- Separators past the last chunk are absent from the encoded payload. -/
theorem str_contains_sep_enc_ge {s₀ : Str} {rest : List Str} {i : Nat}
    (hK0 : ∀ q, ¬ Occ KMARK s₀ q) (hKr : ∀ s ∈ rest, ∀ q, ¬ Occ KMARK s q)
    (hr9 : rest.length ≤ 9) (hge : rest.length ≤ i) (hi : i ≤ 9) :
    str_contains (sep_mark (i : Int)) (s₀ ++ batch_chunks 0 rest) = false := by
  unfold str_contains
  cases hf : str_find (sep_mark (i : Int)) (s₀ ++ batch_chunks 0 rest) with
  | none => rfl
  | some p =>
    have := (occ_sep_enc hK0 hKr hr9 hi (str_find_occ hf)).1
    omega

/-- The `-1` separator is absent from the encoded payload. -/
theorem str_contains_sep_neg_one_enc {s₀ : Str} {rest : List Str}
    (hK0 : ∀ q, ¬ Occ KMARK s₀ q) (hKr : ∀ s ∈ rest, ∀ q, ¬ Occ KMARK s q)
    (hr9 : rest.length ≤ 9) :
    str_contains (sep_mark (-1)) (s₀ ++ batch_chunks 0 rest) = false := by
  unfold str_contains
  cases hf : str_find (sep_mark (-1)) (s₀ ++ batch_chunks 0 rest) with
  | none => rfl
  | some p => exact absurd (str_find_occ hf) (fun hx => occ_sep_neg_one_enc hK0 hKr hr9 hx)

theorem sbr_step_zero {combined : Str} {n : Nat} {acc : List Str}
    (hc : str_contains (sep_mark ((0 : Nat) : Int)) combined = true) :
    sbr_step combined n acc 0 =
      acc ++ [(py_split1 (sep_mark ((0 : Nat) : Int)) combined).headI] := by
  unfold sbr_step
  simp only [hc, if_true]

theorem sbr_step_succ {combined : Str} {n : Nat} {acc : List Str} {j : Nat}
    (hc : str_contains (sep_mark ((j + 1 : Nat) : Int)) combined = true)
    (hcp : str_contains (sep_mark ((j : Nat) : Int)) combined = true) :
    sbr_step combined n acc (j + 1) =
      acc ++ [(combined.take ((str_find (sep_mark ((j + 1 : Nat) : Int)) combined).getD 0)).drop
        ((str_find (sep_mark ((j : Nat) : Int)) combined).getD 0 +
          (sep_mark ((j : Nat) : Int)).length)] := by
  unfold sbr_step
  have hcast : ((j + 1 : Nat) : Int) - 1 = ((j : Nat) : Int) := by push_cast; ring
  rw [hcast]
  simp only [hc, hcp, if_true]
  simp

theorem sbr_step_last {combined : Str} {n : Nat} {acc : List Str} {i : Nat}
    (h1 : 1 ≤ i) (hin : i = n - 1)
    (hc : str_contains (sep_mark (i : Int)) combined = false)
    (hcp : str_contains (sep_mark ((i - 1 : Nat) : Int)) combined = true)
    {p : Nat} (hf : str_find (sep_mark ((i - 1 : Nat) : Int)) combined = some p) :
    sbr_step combined n acc i =
      acc ++ [combined.drop (p + (sep_mark ((i - 1 : Nat) : Int)).length)] := by
  subst hin
  unfold sbr_step
  have hcast : ((n - 1 : Nat) : Int) - 1 = ((n - 1 - 1 : Nat) : Int) := by omega
  rw [hcast]
  simp only [hc, Bool.false_eq_true, if_false, eq_self_iff_true, if_true, hcp]
  simp only [py_split1, hf]
  simp

/-- Decoding the encoded payload of `rest.length + 1` marker-free sections
recovers every section. -/
theorem split_batch_result_encode (s₀ : Str) (rest : List Str)
    (hK0 : ∀ q, ¬ Occ KMARK s₀ q) (hKr : ∀ s ∈ rest, ∀ q, ¬ Occ KMARK s q)
    (hr1 : 1 ≤ rest.length) (hr9 : rest.length ≤ 9) :
    split_batch_result (s₀ ++ batch_chunks 0 rest) (rest.length + 1) = s₀ :: rest := by
  set enc := s₀ ++ batch_chunks 0 rest with henc
  have hfind : ∀ j, j < rest.length →
      str_find (sep_mark (j : Int)) enc = some (s₀.length + chunks_pref rest j) :=
    fun j hj => str_find_sep_enc hK0 hKr hr9 hj
  have hcont : ∀ j, j < rest.length → str_contains (sep_mark (j : Int)) enc = true := by
    intro j hj
    unfold str_contains
    rw [hfind j hj]
    rfl
  have hcontn : str_contains (sep_mark ((rest.length : Nat) : Int)) enc = false :=
    str_contains_sep_enc_ge hK0 hKr hr9 (le_refl _) hr9
  have htake0 : enc.take (s₀.length + chunks_pref rest 0) = s₀ := by
    rw [chunks_pref_zero, Nat.add_zero, henc]
    exact List.take_left ..
  have hslice : ∀ j (hj1 : j + 1 < rest.length),
      (enc.take (s₀.length + chunks_pref rest (j + 1))).drop
        (s₀.length + chunks_pref rest j + 24) = rest.get ⟨j, by omega⟩ := by
    intro j hj1
    have hj : j < rest.length := by omega
    rw [List.drop_take, chunks_pref_succ hj]
    rw [show s₀.length + (chunks_pref rest j + 24 + (rest.get ⟨j, hj⟩).length) -
      (s₀.length + chunks_pref rest j + 24) = (rest.get ⟨j, hj⟩).length from by omega]
    rw [henc, enc_drop_marker hj hr9]
    rw [show rest.get ⟨j, hj⟩ = rest[j] from rfl]
    exact List.take_left ..
  have hlast : enc.drop (s₀.length + chunks_pref rest (rest.length - 1) + 24) =
      rest.get ⟨rest.length - 1, by omega⟩ := by
    have hj : rest.length - 1 < rest.length := by omega
    rw [henc, enc_drop_marker hj hr9]
    rw [show rest.length - 1 + 1 = rest.length from by omega, List.drop_length]
    rw [show batch_chunks rest.length [] = [] from rfl, List.append_nil]
    rfl
  -- invariant: the first k loop iterations produce the first k sections
  have hinv : ∀ k, k ≤ rest.length →
      (List.range k).foldl (sbr_step enc (rest.length + 1)) [] = (s₀ :: rest).take k := by
    intro k
    induction k with
    | zero => intro _; simp
    | succ k ih =>
      intro hk
      rw [List.range_succ, List.foldl_append]
      simp only [List.foldl_cons, List.foldl_nil]
      rw [ih (by omega)]
      have hkr : k < rest.length := by omega
      cases k with
      | zero =>
        rw [sbr_step_zero (hcont 0 (by omega))]
        simp only [py_split1, hfind 0 (by omega)]
        rw [show ((s₀ :: rest).take 0) = [] from rfl]
        simp only [List.headI]
        rw [htake0]
        rfl
      | succ j =>
        rw [sbr_step_succ (hcont (j + 1) hkr) (hcont j (by omega))]
        rw [hfind (j + 1) hkr, hfind j (by omega)]
        simp only [Option.getD_some]
        rw [sep_length (by omega : j ≤ 9)]
        rw [hslice j hkr]
        rw [← List.concat_eq_append]
        have hi1 : j + 1 < (s₀ :: rest).length := by simp only [List.length_cons]; omega
        have hgj : rest.get ⟨j, by omega⟩ = (s₀ :: rest).get ⟨j + 1, hi1⟩ := rfl
        rw [hgj, List.get_eq_getElem, List.take_concat_get]
  -- final iteration appends the last section
  unfold split_batch_result
  rw [List.range_succ, List.foldl_append]
  simp only [List.foldl_cons, List.foldl_nil]
  rw [hinv rest.length (le_refl _)]
  rw [sbr_step_last hr1 (by omega) hcontn (hcont (rest.length - 1) (by omega))
    (hfind (rest.length - 1) (by omega))]
  rw [sep_length (by omega : rest.length - 1 ≤ 9)]
  rw [hlast]
  rw [← List.concat_eq_append]
  have hif : rest.length < (s₀ :: rest).length := by simp
  have hget : rest.get ⟨rest.length - 1, by omega⟩ = (s₀ :: rest).get ⟨rest.length, hif⟩ := by
    rcases rest with _ | ⟨a, rest'⟩
    · simp at hr1
    · rfl
  rw [hget, List.get_eq_getElem, List.take_concat_get]
  rw [show rest.length + 1 = (s₀ :: rest).length from by simp]
  exact List.take_length ..

/-- C3 amended: for every list of 2 to 5 segment HTML strings, none of which
contains the marker substring `SECTION_BREAK`, decoding the marker-encoded
concatenation with the list's length recovers exactly the original list.
(The claim's size-1 case fails: see the counterexample.) -/
theorem batch_roundtrip (l : List Str) (h2 : 2 ≤ l.length) (h5 : l.length ≤ 5)
    (hK : ∀ s ∈ l, ∀ p, ¬ Occ KMARK s p) :
    split_batch_result (encode_batch l) l.length = l := by
  cases l with
  | nil => simp at h2
  | cons s₀ rest =>
    rw [show encode_batch (s₀ :: rest) = s₀ ++ batch_chunks 0 rest from rfl]
    rw [show (s₀ :: rest).length = rest.length + 1 from rfl]
    exact split_batch_result_encode s₀ rest (hK s₀ (by simp))
      (fun s hs q => hK s (by simp [hs]) q)
      (by simp at h2; omega) (by simp at h5; omega)

/-- Witness for C3 amended: a concrete two-section round trip. -/
theorem batch_roundtrip_witness :
    split_batch_result (encode_batch [['a'], ['b']]) 2 = [['a'], ['b']] := by
  have h := batch_roundtrip [['a'], ['b']] (by decide) (by decide)
    (fun s hs p => by
      simp only [List.mem_cons, List.mem_singleton] at hs
      rcases hs with rfl | rfl | hs
      · exact no_occ_of_short (by decide) (by decide) p
      · exact no_occ_of_short (by decide) (by decide) p
      · simp at hs)
  simpa using h

/-- A segment as handed to the classifier phase: the serialized section
HTML, the lowercased heading text, and the visible text length computed by
the segmenter (html_processing.py lines 193-226). -/
structure Seg where
  html : Str
  heading_text : String
  text_length : Nat
deriving Repr, DecidableEq, Inhabited

/-- A classified dispatch task (the dicts built at html_processing.py lines
243-300): its covered segment indices, the payload HTML, and, for a batch,
the folded section count. -/
inductive PTask where
  | skip (section_indices : List Nat) (html : Str)
  | batch (section_indices : List Nat) (html : Str) (num_sections : Nat)
  | individual (section_indices : List Nat) (html : Str)
deriving Repr, DecidableEq

def PTask.section_indices : PTask → List Nat
  | .skip idxs _ => idxs
  | .batch idxs _ _ => idxs
  | .individual idxs _ => idxs

def PTask.html : PTask → Str
  | .skip _ h => h
  | .batch _ h _ => h
  | .individual _ h => h

def PTask.is_batch : PTask → Bool
  | .batch _ _ _ => true
  | _ => false

def PTask.is_skip : PTask → Bool
  | .skip _ _ => true
  | _ => false

/-- The look-ahead loop that extends a batch window over consecutive small
sections (html_processing.py lines 255-269): starting after the window
seed, it walks the remaining sections (`j` is the absolute index of the
head), stopping at a skipped or large section or at a window of 5. -/
def extend_batch (vis_len : Str → Nat) :
    List Seg → Nat → List Nat → List Str → List Nat × List Str
  | [], _, batch_indices, batch_html_parts => (batch_indices, batch_html_parts)
  | next_section :: restSecs, j, batch_indices, batch_html_parts =>
    if batch_indices.length < 5 then
      if should_skip_section vis_len next_section.heading_text next_section.html then
        (batch_indices, batch_html_parts)
      else if next_section.text_length < SMALL_SECTION_THRESHOLD then
        extend_batch vis_len restSecs (j + 1) (batch_indices ++ [j])
          (batch_html_parts ++
            [sep_mark ((batch_html_parts.length : Int) - 1) ++ next_section.html])
      else (batch_indices, batch_html_parts)
    else (batch_indices, batch_html_parts)

/-- Phase 1.5 of `process_and_replace_sections_inline`: the `while i <
len(sections)` classification loop (html_processing.py lines 228-302),
phrased over the section suffix starting at absolute index `i`.  A batch
window of size `k+1` consumes the seed plus `k` sections of the suffix and
resumes at `i + k + 1`, exactly as the source's `i = j`. -/
def classify_from (vis_len : Str → Nat) : List Seg → Nat → List PTask
  | [], _ => []
  | sec :: restSecs, i =>
    if should_skip_section vis_len sec.heading_text sec.html then
      PTask.skip [i] sec.html :: classify_from vis_len restSecs (i + 1)
    else if sec.text_length < SMALL_SECTION_THRESHOLD then
      match extend_batch vis_len restSecs (i + 1) [i] [sec.html] with
      | (batch_indices, batch_html_parts) =>
        if 1 < batch_indices.length then
          PTask.batch batch_indices batch_html_parts.flatten batch_indices.length ::
            classify_from vis_len (restSecs.drop (batch_indices.length - 1))
              (i + batch_indices.length)
        else
          PTask.individual [i] sec.html :: classify_from vis_len restSecs (i + 1)
    else
      PTask.individual [i] sec.html :: classify_from vis_len restSecs (i + 1)
termination_by secs _ => secs.length
decreasing_by
  · simp
  · simp [List.length_drop]
    omega
  · simp
  · simp

/-- The classifier over the whole section list. -/
def classify (vis_len : Str → Nat) (sections : List Seg) : List PTask :=
  classify_from vis_len sections 0

/-- The window extension appends exactly the consecutive indices it
consumes. -/
theorem extend_batch_indices (vis_len : Str → Nat) :
    ∀ (restSecs : List Seg) (j : Nat) (acc : List Nat) (parts : List Str),
      ∃ k ≤ restSecs.length,
        (extend_batch vis_len restSecs j acc parts).1 = acc ++ List.range' j k := by
  intro restSecs
  induction restSecs with
  | nil =>
    intro j acc parts
    exact ⟨0, by simp, by simp [extend_batch]⟩
  | cons sec rest ih =>
    intro j acc parts
    unfold extend_batch
    split
    · split
      · exact ⟨0, by simp, by simp⟩
      · split
        · rcases ih (j + 1) (acc ++ [j])
            (parts ++ [sep_mark ((parts.length : Int) - 1) ++ sec.html]) with ⟨k, hk, he⟩
          refine ⟨k + 1, by simp; omega, ?_⟩
          rw [he, List.append_assoc]
          congr 1
        · exact ⟨0, by simp, by simp⟩
    · exact ⟨0, by simp, by simp⟩

/-- The window never grows past 5 indices. -/
theorem extend_batch_le (vis_len : Str → Nat) :
    ∀ (restSecs : List Seg) (j : Nat) (acc : List Nat) (parts : List Str),
      acc.length ≤ 5 → (extend_batch vis_len restSecs j acc parts).1.length ≤ 5 := by
  intro restSecs
  induction restSecs with
  | nil => intro j acc parts h; simpa [extend_batch] using h
  | cons sec rest ih =>
    intro j acc parts h
    unfold extend_batch
    split
    · rename_i hlt
      split
      · simpa using h
      · split
        · exact ih (j + 1) (acc ++ [j]) _ (by simp; omega)
        · simpa using h
    · simpa using h

/-- The classifier's tasks cover, in order, exactly the consecutive
absolute indices of the section suffix it walks. -/
theorem classify_from_indices (vis_len : Str → Nat) :
    ∀ (n : Nat) (secs : List Seg), secs.length ≤ n → ∀ (i : Nat),
      (classify_from vis_len secs i).flatMap PTask.section_indices =
        List.range' i secs.length := by
  intro n
  induction n with
  | zero =>
    intro secs h i
    have hnil : secs = [] := List.length_eq_zero.mp (by omega)
    subst hnil
    simp [classify_from]
  | succ n ih =>
    intro secs hlen i
    cases secs with
    | nil => simp [classify_from]
    | cons sec rest =>
      have hrest : rest.length ≤ n := by
        simp only [List.length_cons] at hlen
        omega
      rw [classify_from]
      split
      · simp only [List.flatMap_cons, PTask.section_indices]
        rw [ih rest hrest (i + 1)]
        rfl
      · split
        · rcases hbp : extend_batch vis_len rest (i + 1) [i] [sec.html] with ⟨bi, bparts⟩
          rcases extend_batch_indices vis_len rest (i + 1) [i] [sec.html] with ⟨k, hk, he⟩
          rw [hbp] at he
          simp only at he
          simp only [hbp]
          split
          · rename_i hgt
            simp only [List.flatMap_cons, PTask.section_indices]
            rw [he]
            rw [show ([i] ++ List.range' (i + 1) k).length = k + 1 from by simp]
            rw [ih (rest.drop (k + 1 - 1)) (by simp [List.length_drop]; omega) (i + (k + 1))]
            rw [show k + 1 - 1 = k from rfl]
            rw [show ([i] ++ List.range' (i + 1) k) = List.range' i (k + 1) from rfl]
            rw [List.range'_append_1]
            simp only [List.length_cons, List.length_drop]
            congr 1
            omega
          · simp only [List.flatMap_cons, PTask.section_indices]
            rw [ih rest hrest (i + 1)]
            rfl
        · simp only [List.flatMap_cons, PTask.section_indices]
          rw [ih rest hrest (i + 1)]
          rfl

/-- Every classifier task covers at least one segment index. -/
theorem classify_from_ne_nil (vis_len : Str → Nat) :
    ∀ (n : Nat) (secs : List Seg), secs.length ≤ n → ∀ (i : Nat),
      ∀ t ∈ classify_from vis_len secs i, t.section_indices ≠ [] := by
  intro n
  induction n with
  | zero =>
    intro secs h i t ht
    have hnil : secs = [] := List.length_eq_zero.mp (by omega)
    subst hnil
    simp [classify_from] at ht
  | succ n ih =>
    intro secs hlen i t ht
    cases secs with
    | nil => simp [classify_from] at ht
    | cons sec rest =>
      have hrest : rest.length ≤ n := by
        simp only [List.length_cons] at hlen
        omega
      rw [classify_from] at ht
      split at ht
      · rcases List.mem_cons.mp ht with rfl | ht'
        · simp [PTask.section_indices]
        · exact ih rest hrest (i + 1) t ht'
      · split at ht
        · rcases hbp : extend_batch vis_len rest (i + 1) [i] [sec.html] with ⟨bi, bparts⟩
          rw [hbp] at ht
          simp only at ht
          rcases extend_batch_indices vis_len rest (i + 1) [i] [sec.html] with ⟨k, hk, he⟩
          rw [hbp] at he
          simp only at he
          split at ht
          · rcases List.mem_cons.mp ht with rfl | ht'
            · simp [PTask.section_indices, he]
            · exact ih (rest.drop (bi.length - 1)) (by simp [List.length_drop]; omega)
                (i + bi.length) t ht'
          · rcases List.mem_cons.mp ht with rfl | ht'
            · simp [PTask.section_indices]
            · exact ih rest hrest (i + 1) t ht'
        · rcases List.mem_cons.mp ht with rfl | ht'
          · simp [PTask.section_indices]
          · exact ih rest hrest (i + 1) t ht'

/-- Non-empty lists of naturals that concatenate to a strictly sorted list
appear in non-decreasing order of their minima. -/
theorem chain_minimum_of_flatten_sorted :
    ∀ (Ls : List (List Nat)), Ls.flatten.Pairwise (· < ·) → (∀ l ∈ Ls, l ≠ []) →
      List.Chain' (fun l₁ l₂ => l₁.minimum ≤ l₂.minimum) Ls := by
  intro Ls
  induction Ls with
  | nil => intro _ _; simp
  | cons l₁ Ls ih =>
    intro hsort hne
    cases Ls with
    | nil => simp
    | cons l₂ Ls' =>
      rw [List.chain'_cons]
      have hsort' := hsort
      rw [show (l₁ :: l₂ :: Ls').flatten = l₁ ++ (l₂ :: Ls').flatten from rfl,
        List.pairwise_append] at hsort'
      constructor
      · have hl1 : l₁ ≠ [] := hne l₁ (by simp)
        have hl2 : l₂ ≠ [] := hne l₂ (by simp)
        rcases WithTop.ne_top_iff_exists.mp (List.minimum_ne_top_of_ne_nil hl1) with ⟨a, ha⟩
        rcases WithTop.ne_top_iff_exists.mp (List.minimum_ne_top_of_ne_nil hl2) with ⟨b, hb⟩
        have hamem : a ∈ l₁ := List.minimum_mem ha.symm
        have hbmem : b ∈ l₂ := List.minimum_mem hb.symm
        have hab : a < b := hsort'.2.2 a hamem b (by
          rw [show (l₂ :: Ls').flatten = l₂ ++ Ls'.flatten from rfl]
          exact List.mem_append_left _ hbmem)
        rw [← ha, ← hb]
        exact_mod_cast le_of_lt hab
      · exact ih hsort'.2.1 (fun l hl => hne l (by simp [hl]))

/-- C4: each segment index is assigned to at least one classifier task, no
segment index appears in two tasks, and the produced task list is in
non-decreasing order of the minimum segment index each task covers. -/
theorem classify_coverage_order (vis_len : Str → Nat) (sections : List Seg) :
    (∀ idx < sections.length,
      ∃ t ∈ classify vis_len sections, idx ∈ t.section_indices) ∧
    List.Pairwise (fun t u : PTask =>
      ∀ a ∈ t.section_indices, a ∉ u.section_indices) (classify vis_len sections) ∧
    List.Chain' (fun t u : PTask =>
      t.section_indices.minimum ≤ u.section_indices.minimum) (classify vis_len sections) := by
  have hflat : (classify vis_len sections).flatMap PTask.section_indices =
      List.range' 0 sections.length :=
    classify_from_indices vis_len sections.length sections (le_refl _) 0
  have hne : ∀ t ∈ classify vis_len sections, t.section_indices ≠ [] :=
    classify_from_ne_nil vis_len sections.length sections (le_refl _) 0
  have hmapflat : ((classify vis_len sections).map PTask.section_indices).flatten =
      List.range' 0 sections.length := by
    rw [← List.flatMap_def]
    exact hflat
  refine ⟨?_, ?_, ?_⟩
  · intro idx hidx
    have hmem : idx ∈ (classify vis_len sections).flatMap PTask.section_indices := by
      rw [hflat, List.mem_range'_1]
      omega
    rcases List.mem_flatMap.mp hmem with ⟨t, ht, hidxt⟩
    exact ⟨t, ht, hidxt⟩
  · have hnodup : ((classify vis_len sections).map PTask.section_indices).flatten.Nodup := by
      rw [hmapflat]
      exact List.nodup_range' ..
    have hpw := (List.nodup_flatten.mp hnodup).2
    rw [List.pairwise_map] at hpw
    exact hpw.imp (fun hD a ha hb => hD ha hb)
  · have hchain := chain_minimum_of_flatten_sorted
      ((classify vis_len sections).map PTask.section_indices)
      (by rw [hmapflat]; exact List.pairwise_lt_range' ..)
      (by intro l hl
          rcases List.mem_map.mp hl with ⟨t, ht, rfl⟩
          exact hne t ht)
    rw [List.chain'_map] at hchain
    exact hchain

/-- Every batch task covers between 2 and 5 segments. -/
theorem classify_from_batch_size (vis_len : Str → Nat) :
    ∀ (n : Nat) (secs : List Seg), secs.length ≤ n → ∀ (i : Nat),
      ∀ t ∈ classify_from vis_len secs i, t.is_batch = true →
        2 ≤ t.section_indices.length ∧ t.section_indices.length ≤ 5 := by
  intro n
  induction n with
  | zero =>
    intro secs h i t ht
    have hnil : secs = [] := List.length_eq_zero.mp (by omega)
    subst hnil
    simp [classify_from] at ht
  | succ n ih =>
    intro secs hlen i t ht hb
    cases secs with
    | nil => simp [classify_from] at ht
    | cons sec rest =>
      have hrest : rest.length ≤ n := by
        simp only [List.length_cons] at hlen
        omega
      rw [classify_from] at ht
      split at ht
      · rcases List.mem_cons.mp ht with rfl | ht'
        · simp [PTask.is_batch] at hb
        · exact ih rest hrest (i + 1) t ht' hb
      · split at ht
        · rcases hbp : extend_batch vis_len rest (i + 1) [i] [sec.html] with ⟨bi, bparts⟩
          rw [hbp] at ht
          simp only at ht
          have hle : bi.length ≤ 5 := by
            have := extend_batch_le vis_len rest (i + 1) [i] [sec.html] (by simp)
            rw [hbp] at this
            exact this
          split at ht
          · rename_i hgt
            rcases List.mem_cons.mp ht with rfl | ht'
            · exact ⟨by simpa [PTask.section_indices] using hgt,
                by simpa [PTask.section_indices] using hle⟩
            · exact ih (rest.drop (bi.length - 1)) (by simp [List.length_drop]; omega)
                (i + bi.length) t ht' hb
          · rcases List.mem_cons.mp ht with rfl | ht'
            · simp [PTask.is_batch] at hb
            · exact ih rest hrest (i + 1) t ht' hb
        · rcases List.mem_cons.mp ht with rfl | ht'
          · simp [PTask.is_batch] at hb
          · exact ih rest hrest (i + 1) t ht' hb

/-- C5: a batch window never covers more than 5 segments, a window of size
1 degrades to an individual task (so every batch task covers 2 to 5
segments), and 6 consecutive unskipped small sections classify into
exactly a batch of the first five plus an individual sixth. -/
theorem batch_cap_and_degradation (vis_len : Str → Nat) (sections : List Seg) :
    (∀ t ∈ classify vis_len sections, t.is_batch = true →
      2 ≤ t.section_indices.length ∧ t.section_indices.length ≤ 5) ∧
    (sections.length = 6 →
      (∀ s ∈ sections,
        should_skip_section vis_len s.heading_text s.html = false ∧
        s.text_length < SMALL_SECTION_THRESHOLD) →
      ∃ payload : Str,
        classify vis_len sections =
          [PTask.batch [0, 1, 2, 3, 4] payload 5,
           PTask.individual [5] ((sections.getD 5 default).html)]) := by
  constructor
  · exact classify_from_batch_size vis_len sections.length sections (le_refl _) 0
  · intro hlen hprops
    rcases sections with _ | ⟨s0, _ | ⟨s1, _ | ⟨s2, _ | ⟨s3, _ | ⟨s4, _ | ⟨s5, tail⟩⟩⟩⟩⟩⟩ <;>
      simp only [List.length_cons, List.length_nil] at hlen
    · omega
    · omega
    · omega
    · omega
    · omega
    · omega
    have htail : tail = [] := List.length_eq_zero.mp (by omega)
    subst htail
    have h0 := hprops s0 (by simp)
    have h1 := hprops s1 (by simp)
    have h2 := hprops s2 (by simp)
    have h3 := hprops s3 (by simp)
    have h4 := hprops s4 (by simp)
    have h5 := hprops s5 (by simp)
    refine ⟨([s0.html, sep_mark 0 ++ s1.html, sep_mark 1 ++ s2.html,
      sep_mark 2 ++ s3.html, sep_mark 3 ++ s4.html] : List Str).flatten, ?_⟩
    unfold classify
    have hext : extend_batch vis_len [s1, s2, s3, s4, s5] 1 [0] [s0.html] =
        ([0, 1, 2, 3, 4],
         [s0.html, sep_mark 0 ++ s1.html, sep_mark 1 ++ s2.html,
          sep_mark 2 ++ s3.html, sep_mark 3 ++ s4.html]) := by
      simp [extend_batch, h1.1, h1.2, h2.1, h2.2, h3.1, h3.2, h4.1, h4.2, h5.1, h5.2]
    rw [classify_from]
    simp only [h0.1, Bool.false_eq_true, if_false, h0.2, if_true, hext]
    rw [classify_from]
    simp [classify_from, h5.1, h5.2,
      show extend_batch vis_len [] 6 [5] [s5.html] = ([5], [s5.html]) from rfl]

/-- Witness for C4: coverage instantiated on a concrete one-section list. -/
theorem classify_coverage_order_witness :
    ∃ t ∈ classify List.length [(⟨List.replicate 600 'a', "history", 600⟩ : Seg)],
      0 ∈ t.section_indices :=
  (classify_coverage_order List.length
    [(⟨List.replicate 600 'a', "history", 600⟩ : Seg)]).1 0
    (by rw [List.length_singleton]; omega)

/-- Witness for C5: six concrete small sections give a 5-batch plus an
individual task. -/
theorem batch_cap_and_degradation_witness :
    ∃ payload : Str,
      classify List.length
        (List.replicate 6 (⟨List.replicate 100 'a', "history", 100⟩ : Seg)) =
        [PTask.batch [0, 1, 2, 3, 4] payload 5,
         PTask.individual [5] (List.replicate 100 'a')] := by
  have h := (batch_cap_and_degradation List.length
    (List.replicate 6 (⟨List.replicate 100 'a', "history", 100⟩ : Seg))).2
    (by simp)
    (fun s hs => by
      rw [List.eq_of_mem_replicate hs]
      exact ⟨by decide, by decide⟩)
  rw [show ((List.replicate 6 (⟨List.replicate 100 'a', "history", 100⟩ : Seg)).getD 5
    default).html = List.replicate 100 'a' from rfl] at h
  exact h

/-- The per-task result record built by `process_task`
(html_processing.py lines 307-354). -/
structure TaskResult where
  success : Bool
  results : List Str
  section_indices : List Nat
deriving Repr, DecidableEq

/-- The fallback applied when a batch response does not split back into the
expected count: split the original combined payload on the marker prefix
and strip each later part up to the comment close
(html_processing.py lines 325-328). -/
def batch_fallback (task_html : Str) : List Str :=
  match py_split ("<!-- SECTION_BREAK_".toList) task_html with
  | [] => []
  | p0 :: parts =>
    p0 :: parts.map (fun part =>
      if str_contains ("-->".toList) part then (py_split1 ("-->".toList) part).getD 1 []
      else part)

/-- Model of `process_task` (html_processing.py lines 307-354).  The
`transform` parameter embeds the external `update_content` call; an
`.error` value is an exception raised by that call, caught by the
task-level handler which substitutes the original section HTML from
`sections` for every index the task covers. -/
def process_task (transform : Str → Except Unit Str) (sections : List Seg) :
    PTask → TaskResult
  | .skip idxs html => ⟨true, [html], idxs⟩
  | .batch idxs html num =>
    match transform html with
    | .error _ => ⟨false, idxs.map (fun idx => (sections.getD idx default).html), idxs⟩
    | .ok updated_html =>
      let split_results := split_batch_result updated_html num
      if split_results.length ≠ num then ⟨false, batch_fallback html, idxs⟩
      else ⟨true, split_results, idxs⟩
  | .individual idxs html =>
    match transform html with
    | .error _ => ⟨false, idxs.map (fun idx => (sections.getD idx default).html), idxs⟩
    | .ok updated_html => ⟨true, [updated_html], idxs⟩

/-- The `asyncio.gather` over all tasks (html_processing.py line 358): one
result slot per task, each depending only on its own task. -/
def process_all_tasks (transform : Str → Except Unit Str) (sections : List Seg)
    (tasks : List PTask) : List TaskResult :=
  tasks.map (process_task transform sections)

/-- A task's result depends only on the transformer's answer to its own
payload. -/
theorem process_task_congr {t1 t2 : Str → Except Unit Str} (sections : List Seg)
    (t : PTask) (h : t1 t.html = t2 t.html) :
    process_task t1 sections t = process_task t2 sections t := by
  cases t with
  | skip idxs html => rfl
  | batch idxs html num =>
    simp only [PTask.html] at h
    simp only [process_task, h]
  | individual idxs html =>
    simp only [PTask.html] at h
    simp only [process_task, h]

/-- C1: if the external transformer raises for one batch or individual
task, that task's result is the original HTML of every segment index it
covers (with its success flag cleared); every other task's result slot is
unchanged from what it would be under any transformer agreeing on the
other tasks' payloads (e.g. one for which the failing task succeeds); and
the gather still yields exactly one result per task, so the failure does
not propagate out of `process_and_replace_sections_inline`. -/
theorem task_failure_isolation (transform transform' : Str → Except Unit Str)
    (sections : List Seg) (tasks : List PTask) (k : Nat) (hk : k < tasks.length)
    (hskip : (tasks.get ⟨k, hk⟩).is_skip = false)
    (hfail : transform ((tasks.get ⟨k, hk⟩).html) = .error ())
    (hagree : ∀ j (hj : j < tasks.length), j ≠ k →
      transform' ((tasks.get ⟨j, hj⟩).html) = transform ((tasks.get ⟨j, hj⟩).html)) :
    (process_task transform sections (tasks.get ⟨k, hk⟩)).results =
      (tasks.get ⟨k, hk⟩).section_indices.map
        (fun idx => (sections.getD idx default).html) ∧
    (process_task transform sections (tasks.get ⟨k, hk⟩)).success = false ∧
    (∀ j, j < tasks.length → j ≠ k →
      (process_all_tasks transform sections tasks)[j]? =
        (process_all_tasks transform' sections tasks)[j]?) ∧
    (process_all_tasks transform sections tasks).length = tasks.length := by
  refine ⟨?_, ?_, ?_, ?_⟩
  · cases ht : tasks.get ⟨k, hk⟩ with
    | skip idxs html => rw [ht] at hskip; simp [PTask.is_skip] at hskip
    | batch idxs html num =>
      rw [ht] at hfail
      simp only [PTask.html] at hfail
      simp [process_task, hfail, PTask.section_indices]
    | individual idxs html =>
      rw [ht] at hfail
      simp only [PTask.html] at hfail
      simp [process_task, hfail, PTask.section_indices]
  · cases ht : tasks.get ⟨k, hk⟩ with
    | skip idxs html => rw [ht] at hskip; simp [PTask.is_skip] at hskip
    | batch idxs html num =>
      rw [ht] at hfail
      simp only [PTask.html] at hfail
      simp [process_task, hfail]
    | individual idxs html =>
      rw [ht] at hfail
      simp only [PTask.html] at hfail
      simp [process_task, hfail]
  · intro j hj hne
    unfold process_all_tasks
    rw [List.getElem?_map, List.getElem?_map]
    rw [List.getElem?_eq_getElem hj]
    simp only [Option.map_some']
    rw [process_task_congr sections (tasks[j]) (hagree j hj hne)]
  · simp [process_all_tasks]

/-- Witness for C1: two individual tasks, the transformer raising on the
first; the first slot falls back to the original HTML and the second slot
matches the run where the first task succeeds. -/
theorem task_failure_isolation_witness :
    (process_task (fun _ => Except.error ()) [⟨['x'], "h", 1⟩, ⟨['y'], "h", 1⟩]
      (([PTask.individual [0] ['x'], PTask.individual [1] ['y']]).get ⟨0, by decide⟩)).results =
      [['x']] ∧
    (process_all_tasks (fun _ => Except.error ()) [⟨['x'], "h", 1⟩, ⟨['y'], "h", 1⟩]
      [PTask.individual [0] ['x'], PTask.individual [1] ['y']])[1]? =
    (process_all_tasks (fun s => if s = ['x'] then Except.ok ['z'] else Except.error ())
      [⟨['x'], "h", 1⟩, ⟨['y'], "h", 1⟩]
      [PTask.individual [0] ['x'], PTask.individual [1] ['y']])[1]? := by
  have h := task_failure_isolation (fun _ => Except.error ())
    (fun s => if s = ['x'] then Except.ok ['z'] else Except.error ())
    [⟨['x'], "h", 1⟩, ⟨['y'], "h", 1⟩]
    [PTask.individual [0] ['x'], PTask.individual [1] ['y']] 0 (by decide)
    (by decide) rfl
    (fun j hj hne => by
      have hj2 : j < 2 := by simpa using hj
      interval_cases j
      · exact absurd rfl hne
      · rfl)
  exact ⟨h.1.trans (by decide), (h.2.2.1 1 (by decide) (by decide)).symm.symm⟩

/-- Is `b` a UTF-8 continuation byte? -/
def utf8_cont (b : Nat) : Bool := 0x80 ≤ b ∧ b ≤ 0xBF

/-- Strict UTF-8 decoding, the semantics of Python `bytes.decode('utf-8')`:
rejects stray continuation bytes, overlong encodings, surrogates and
out-of-range code points; `none` models a raised `UnicodeDecodeError`. -/
def utf8_decode : List Nat → Option (List Char)
  | [] => some []
  | b :: rest =>
    if b < 0x80 then (utf8_decode rest).map (fun cs => Char.ofNat b :: cs)
    else if 0xC2 ≤ b ∧ b ≤ 0xDF then
      match rest with
      | b1 :: rest' =>
        if utf8_cont b1 then
          (utf8_decode rest').map (fun cs =>
            Char.ofNat ((b - 0xC0) * 0x40 + (b1 - 0x80)) :: cs)
        else none
      | [] => none
    else if 0xE0 ≤ b ∧ b ≤ 0xEF then
      match rest with
      | b1 :: b2 :: rest' =>
        if (if b = 0xE0 then decide (0xA0 ≤ b1 ∧ b1 ≤ 0xBF)
            else if b = 0xED then decide (0x80 ≤ b1 ∧ b1 ≤ 0x9F)
            else utf8_cont b1) && utf8_cont b2 then
          (utf8_decode rest').map (fun cs =>
            Char.ofNat ((b - 0xE0) * 0x1000 + (b1 - 0x80) * 0x40 + (b2 - 0x80)) :: cs)
        else none
      | _ => none
    else if 0xF0 ≤ b ∧ b ≤ 0xF4 then
      match rest with
      | b1 :: b2 :: b3 :: rest' =>
        if (if b = 0xF0 then decide (0x90 ≤ b1 ∧ b1 ≤ 0xBF)
            else if b = 0xF4 then decide (0x80 ≤ b1 ∧ b1 ≤ 0x8F)
            else utf8_cont b1) && utf8_cont b2 && utf8_cont b3 then
          (utf8_decode rest').map (fun cs =>
            Char.ofNat ((b - 0xF0) * 0x40000 + (b1 - 0x80) * 0x1000 +
              (b2 - 0x80) * 0x40 + (b3 - 0x80)) :: cs)
        else none
      | _ => none
    else none

/-- UTF-8 encoding of one scalar value. -/
def utf8_encode_char (c : Char) : List Nat :=
  let n := c.toNat
  if n < 0x80 then [n]
  else if n < 0x800 then [0xC0 + n / 0x40, 0x80 + n % 0x40]
  else if n < 0x10000 then
    [0xE0 + n / 0x1000, 0x80 + n / 0x40 % 0x40, 0x80 + n % 0x40]
  else
    [0xF0 + n / 0x40000, 0x80 + n / 0x1000 % 0x40, 0x80 + n / 0x40 % 0x40, 0x80 + n % 0x40]

/-- UTF-8 encoding of a string (Python `str.encode('utf-8')`, total). -/
def utf8_encode (s : List Char) : List Nat := s.flatMap utf8_encode_char

/-- The `[a-z]` character class. -/
def lower_alpha (c : Char) : Bool := 'a' ≤ c && c ≤ 'z'

/-- Match `([a-z]+\.)?wikipedia\.org` at the start of `s`, returning the
remainder.  The greedy optional group can only succeed by consuming the
whole maximal letter run plus a dot (a letter never matches `\.`), which
reproduces `re`'s backtracking; preferring the group reproduces greedy
matching. -/
def match_wiki_domain (s : Str) : Option Str :=
  let run := s.takeWhile lower_alpha
  let after_run := s.drop run.length
  if run ≠ [] ∧ (".wikipedia.org".toList).isPrefixOf after_run then
    some (after_run.drop 14)
  else if ("wikipedia.org".toList).isPrefixOf s then some (s.drop 13)
  else none

/-- `https?://([a-z]+\.)?wikipedia\.org` at the start of `s`. -/
def match_http_wiki (s : Str) : Option Str :=
  if ("https://".toList).isPrefixOf s then match_wiki_domain (s.drop 8)
  else if ("http://".toList).isPrefixOf s then match_wiki_domain (s.drop 7)
  else none

/-- `//([a-z]+\.)?wikipedia\.org` at the start of `s`. -/
def match_rel_wiki (s : Str) : Option Str :=
  if ("//".toList).isPrefixOf s then match_wiki_domain (s.drop 2)
  else none

/-- `https?://upload\.wikimedia\.org` at the start of `s`. -/
def match_upload_wikimedia (s : Str) : Option Str :=
  if ("https://upload.wikimedia.org".toList).isPrefixOf s then some (s.drop 28)
  else if ("http://upload.wikimedia.org".toList).isPrefixOf s then some (s.drop 27)
  else none

/-- Left-to-right scan-and-replace, the semantics of `re.sub`: at each
position try the matcher; on a match emit the replacement and resume after
the matched text, otherwise emit the character and move one position on.
(Every matcher above consumes at least one character, so the length guard
always holds.) -/
def sub_scan (m : Str → Option Str) (repl : Str) : Str → Str
  | [] => []
  | c :: rest =>
    match m (c :: rest) with
    | some r =>
      if h : r.length ≤ rest.length then repl ++ sub_scan m repl r
      else c :: sub_scan m repl rest
    | none => c :: sub_scan m repl rest
termination_by s => s.length
decreasing_by all_goals (simp [List.length_cons]; try omega)

/-- `os.getenv("WEBSITE_DOMAIN", "localhost:8000")`, modelled at its
default value. -/
def WEBSITE_DOMAIN : String := "localhost:8000"

/-- The three `re.sub` passes of `rewrite_urls` (html_processing.py lines
44-64; wikipedia_proxy.py lines 26-47 with the same default origin). -/
def apply_url_subs (html : Str) : Str :=
  let base_domain := ("http://" ++ WEBSITE_DOMAIN).toList
  let protocol_domain := ("//" ++ WEBSITE_DOMAIN).toList
  let wikimedia_domain := ("http://" ++ WEBSITE_DOMAIN ++ "/wikimedia").toList
  sub_scan match_upload_wikimedia wikimedia_domain
    (sub_scan match_rel_wiki protocol_domain
      (sub_scan match_http_wiki base_domain html))

/-- Python `content_type and 'text/html' in content_type`. -/
def ct_has_html : Option String → Bool
  | none => false
  | some ct => str_contains ("text/html".toList) ct.toList

/-- Model of `src.html_processing.rewrite_urls` (lines 24-66) at the byte
level: decode as UTF-8 (no exception handler, so invalid bytes raise,
modelled `none`), apply the three substitutions, re-encode. -/
def rewrite_urls (content : List Nat) (content_type : Option String) :
    Option (List Nat) :=
  if ¬ ct_has_html content_type then some content
  else
    match utf8_decode content with
    | none => none
    | some html => some (utf8_encode (apply_url_subs html))

/-- Model of the legacy `wikipedia_proxy.rewrite_urls` (wikipedia_proxy.py
lines 16-51): the same substitutions, but the body sits in `try/except`,
so undecodable bytes return the original content unchanged. -/
def rewrite_urls_wp (content : List Nat) (content_type : Option String) :
    List Nat :=
  if ¬ ct_has_html content_type then content
  else
    match utf8_decode content with
    | none => content
    | some html => utf8_encode (apply_url_subs html)

/-- Model of `process_html` (html_processing.py lines 409-438); `pipeline`
embeds `asyncio.run(process_and_replace_sections_inline(...))`. -/
def process_html (pipeline : List Char → List Char) (content : List Nat)
    (content_type : Option String) (path : String) : Option (List Nat) :=
  match rewrite_urls content content_type with
  | none => none
  | some content' =>
    if ¬ ct_has_html content_type then some content'
    else if ¬ (path.startsWith "/wiki/" || path.startsWith "wiki/") ||
        path.contains ':' then
      some content'
    else
      match utf8_decode content' with
      | none => none
      | some html_string => some (utf8_encode (pipeline html_string))

/-- C7: `process_html` invokes the section-transform pipeline exactly when
the content type contains `text/html`, the path starts with `/wiki/` or
`wiki/`, and the path contains no colon; for every other input it returns
the URL-rewritten content, independent of the pipeline. -/
theorem process_html_gating (pipeline : List Char → List Char) (content : List Nat)
    (content_type : Option String) (path : String) :
    process_html pipeline content content_type path =
      if ct_has_html content_type = true ∧
          (path.startsWith "/wiki/" = true ∨ path.startsWith "wiki/" = true) ∧
          path.contains ':' = false then
        match rewrite_urls content content_type with
        | none => none
        | some c => (utf8_decode c).map (fun s => utf8_encode (pipeline s))
      else rewrite_urls content content_type := by
  unfold process_html
  cases hr : rewrite_urls content content_type with
  | none =>
    cases hct : ct_has_html content_type <;>
      cases hw1 : path.startsWith "/wiki/" <;>
      cases hw2 : path.startsWith "wiki/" <;>
      cases hcol : path.contains ':' <;>
      simp [hct, hw1, hw2, hcol]
  | some c =>
    cases hct : ct_has_html content_type <;>
      cases hw1 : path.startsWith "/wiki/" <;>
      cases hw2 : path.startsWith "wiki/" <;>
      cases hcol : path.contains ':' <;>
      simp [hct, hw1, hw2, hcol] <;>
      cases hd : utf8_decode c <;> simp [hd]

/-- C8 (code bug): on bytes that are not valid UTF-8 with an HTML content
type, the live `src.html_processing.rewrite_urls` raises (no handler,
modelled `none`), while the legacy `wikipedia_proxy.rewrite_urls` — the
behaviour the claim and the repo's own test
`test_rewrite_with_invalid_encoding` describe — returns the original bytes
unchanged.  The failing input is the test's own `b'\x80\x81\x82'`. -/
theorem rewrite_urls_invalid_bytes :
    utf8_decode [0x80, 0x81, 0x82] = none ∧
    rewrite_urls [0x80, 0x81, 0x82] (some "text/html") = none ∧
    rewrite_urls_wp [0x80, 0x81, 0x82] (some "text/html") = [0x80, 0x81, 0x82] := by
  refine ⟨by decide, ?_, ?_⟩
  · unfold rewrite_urls
    simp [show ct_has_html (some "text/html") = true from by decide,
      show utf8_decode [0x80, 0x81, 0x82] = none from by decide]
  · unfold rewrite_urls_wp
    simp [show ct_has_html (some "text/html") = true from by decide,
      show utf8_decode [0x80, 0x81, 0x82] = none from by decide]

/-- An HTML DOM node as BeautifulSoup sees it: an element (`Tag`) with a
tag name, class list and children, or a text node (`NavigableString`). -/
inductive HNode where
  | elem (tag : String) (classes : List String) (children : List HNode)
  | text (s : String)

instance : Inhabited HNode := ⟨HNode.text ""⟩

/-- The heading-delimiter test used both by the intro loop
(`child.name == 'div' and child.get('class') and 'mw-heading' in
child.get('class')`, lines 185 and 210) and by
`find_all('div', class_='mw-heading')` (line 204). -/
def isHeadingDiv : HNode → Bool
  | .elem tag classes _ => tag == "div" && classes.contains "mw-heading"
  | .text _ => false

/-- Is this node a Tag (as opposed to a NavigableString)? -/
def isElem : HNode → Bool
  | .elem _ _ _ => true
  | .text _ => false

/-- A node of the live document, identified by its position path from the
container (node identity, standing for Python object identity). -/
abbrev Loc := List Nat × HNode

/-- Children of a container, paired with their paths: positions `k, k+1,
...` appended to `base`. -/
def locate_from (base : List Nat) (k : Nat) : List HNode → List Loc
  | [] => []
  | c :: cs => (base ++ [k], c) :: locate_from base (k + 1) cs

/-- The introduction's `elements_to_remove` (lines 182-188): all of
`content_div.children` — text nodes included — before the first heading
div. -/
def intro_elements (cs : List HNode) : List Loc :=
  (locate_from [] 0 cs).takeWhile (fun l => ! isHeadingDiv l.2)

/-- One heading's `section_elements` (lines 206-212): the heading's
following siblings — `find_next_siblings()` yields only Tags — up to the
next heading div. -/
def section_elements (siblings : List Loc) : List Loc :=
  (siblings.filter (fun l => isElem l.2)).takeWhile (fun l => ! isHeadingDiv l.2)

/-- The `elements_to_remove` of every heading section, in the document
order of `content_div.find_all('div', class_='mw-heading')` (line 204).
`find_all` is recursive, so a heading div nested below a container child is
found too, and its sibling walk then runs inside its own parent. -/
def sections_in_forest (base : List Nat) (k : Nat) : List HNode → List (List Loc)
  | [] => []
  | HNode.elem tag classes gcs :: cs =>
    (if isHeadingDiv (HNode.elem tag classes gcs) then
      [section_elements (locate_from base (k + 1) cs)]
    else []) ++
    sections_in_forest (base ++ [k]) 0 gcs ++
    sections_in_forest base (k + 1) cs
  | HNode.text _ :: cs => sections_in_forest base (k + 1) cs
termination_by cs => sizeOf cs
decreasing_by all_goals (simp; try omega)

/-- The owned-node lists of all segments: introduction first, then the
heading sections in document order. -/
def owned_lists (cs : List HNode) : List (List Loc) :=
  intro_elements cs :: sections_in_forest [] 0 cs

/-- The container's children with their locations. -/
def child_locs (cs : List HNode) : List Loc := locate_from [] 0 cs

/-- C2's partition property over a container's child list: the union over
all segments of their owned nodes is exactly the container's children
minus the heading-delimiter nodes, with no node in two segments' lists. -/
def partition_prop (cs : List HNode) : Prop :=
  (∀ l ∈ (child_locs cs).filter (fun l => ! isHeadingDiv l.2),
    l ∈ (owned_lists cs).flatten) ∧
  (∀ l ∈ (owned_lists cs).flatten,
    l ∈ (child_locs cs).filter (fun l => ! isHeadingDiv l.2)) ∧
  List.Pairwise List.Disjoint (owned_lists cs)

/-- No heading div anywhere in this forest (at any depth). -/
def forest_heading_free : List HNode → Bool
  | [] => true
  | HNode.elem tag classes gcs :: cs =>
      !isHeadingDiv (HNode.elem tag classes gcs) && forest_heading_free gcs &&
        forest_heading_free cs
  | HNode.text _ :: cs => forest_heading_free cs
termination_by cs => sizeOf cs
decreasing_by all_goals (simp; try omega)

/-- No heading div strictly below this node. -/
def children_heading_free : HNode → Bool
  | .elem _ _ gcs => forest_heading_free gcs
  | .text _ => true

/-- C2, counterexample. The container whose children are one heading div
followed by one whitespace text node violates the partition: the text node
is a non-heading child of the container, but `find_next_siblings()` skips
`NavigableString`s, so no segment's element list owns it and it is left
in place rather than moved into a segment. -/
theorem segmenter_partition_counterexample :
    ¬ partition_prop [HNode.elem "div" ["mw-heading"] [], HNode.text " "] := by
  intro h
  have h1 := h.1 ([1], HNode.text " ")
  simp [child_locs, locate_from, isHeadingDiv, owned_lists, intro_elements,
    sections_in_forest, section_elements, isElem] at h1

theorem sections_in_forest_nil : ∀ (n : Nat) (l : List HNode), sizeOf l ≤ n →
    forest_heading_free l = true →
    ∀ (base : List Nat) (k : Nat), sections_in_forest base k l = [] := by
  intro n
  induction n with
  | zero =>
    intro l hl
    cases l with
    | nil => intro _ base k; simp [sections_in_forest]
    | cons c cs => simp at hl
  | succ n ih =>
    intro l hl hf base k
    cases l with
    | nil => simp [sections_in_forest]
    | cons c cs =>
      cases c with
      | elem tag classes gcs =>
        rw [sections_in_forest]
        rw [forest_heading_free] at hf
        simp only [Bool.and_eq_true, Bool.not_eq_true'] at hf
        obtain ⟨⟨hhd, hgcs⟩, hcs⟩ := hf
        have hs : sizeOf (HNode.elem tag classes gcs :: cs) =
            1 + (1 + sizeOf tag + sizeOf classes + sizeOf gcs) + sizeOf cs := by
          simp
        rw [hs] at hl
        rw [hhd]
        rw [ih gcs (by omega) hgcs, ih cs (by omega) hcs]
        simp
      | text s =>
        rw [sections_in_forest]
        rw [forest_heading_free] at hf
        have hs : sizeOf (HNode.text s :: cs) = 1 + (1 + sizeOf s) + sizeOf cs := by
          simp
        rw [hs] at hl
        exact ih cs (by omega) hf base (k + 1)

theorem locate_filter_elem (base : List Nat) (cs : List HNode)
    (h : ∀ c ∈ cs, isElem c = true) :
    ∀ k, (locate_from base k cs).filter (fun l => isElem l.2) = locate_from base k cs := by
  induction cs with
  | nil => intro k; simp [locate_from]
  | cons c cs ih =>
    intro k
    rw [locate_from, List.filter_cons]
    simp [h c (List.mem_cons_self c cs),
      ih (fun x hx => h x (List.mem_cons_of_mem _ hx)) (k + 1)]

theorem segmenter_aux (cs : List HNode)
    (h1 : ∀ c ∈ cs, isElem c = true)
    (h2 : ∀ c ∈ cs, children_heading_free c = true) (base : List Nat) :
    ∀ k, (locate_from base k cs).takeWhile (fun l => ! isHeadingDiv l.2) ++
      (sections_in_forest base k cs).flatten =
    (locate_from base k cs).filter (fun l => ! isHeadingDiv l.2) := by
  induction cs with
  | nil => intro k; simp [locate_from, sections_in_forest]
  | cons c cs ih =>
    intro k
    have hc1 := h1 c (List.mem_cons_self c cs)
    have hc2 := h2 c (List.mem_cons_self c cs)
    have h1' : ∀ x ∈ cs, isElem x = true := fun x hx => h1 x (List.mem_cons_of_mem _ hx)
    have h2' : ∀ x ∈ cs, children_heading_free x = true :=
      fun x hx => h2 x (List.mem_cons_of_mem _ hx)
    cases c with
    | text s => simp [isElem] at hc1
    | elem tag classes gcs =>
      rw [children_heading_free] at hc2
      have hgcs : ∀ b j, sections_in_forest b j gcs = [] :=
        fun b j => sections_in_forest_nil (sizeOf gcs) gcs (le_refl _) hc2 b j
      rw [locate_from, sections_in_forest, List.takeWhile_cons, List.filter_cons]
      cases hh : isHeadingDiv (HNode.elem tag classes gcs) with
      | true =>
        simp only [hh, hgcs, Bool.not_true, Bool.false_eq_true, if_false, if_true,
          List.flatten_append, List.flatten_cons, List.flatten_nil, List.nil_append,
          List.append_nil, ite_true, ite_false]
        rw [section_elements, locate_filter_elem base cs h1' (k + 1)]
        exact ih h1' h2' (k + 1)
      | false =>
        simp only [hh, hgcs, Bool.not_false, Bool.false_eq_true, if_false, if_true,
          List.flatten_append, List.flatten_cons, List.flatten_nil, List.nil_append,
          List.append_nil, ite_true, ite_false, List.cons_append]
        rw [ih h1' h2' (k + 1)]

theorem locate_mem_path (base : List Nat) (cs : List HNode) (l : Loc) :
    ∀ k, l ∈ locate_from base k cs → ∃ j, k ≤ j ∧ l.1 = base ++ [j] := by
  induction cs with
  | nil => intro k h; simp [locate_from] at h
  | cons c cs ih =>
    intro k h
    rw [locate_from, List.mem_cons] at h
    rcases h with h | h
    · exact ⟨k, le_refl k, by rw [h]⟩
    · obtain ⟨j, hj, hp⟩ := ih (k + 1) h
      exact ⟨j, by omega, hp⟩

theorem locate_nodup (base : List Nat) (cs : List HNode) :
    ∀ k, (locate_from base k cs).Nodup := by
  induction cs with
  | nil => intro k; simp [locate_from]
  | cons c cs ih =>
    intro k
    rw [locate_from]
    refine List.nodup_cons.mpr ⟨?_, ih (k + 1)⟩
    intro hmem
    obtain ⟨j, hj, hp⟩ := locate_mem_path base cs _ (k + 1) hmem
    have hk := List.append_cancel_left hp
    simp at hk
    omega

/-- C2, amended. For a container whose children are all Tags (no stray
text nodes between them) and contain no heading div nested below a child,
the segmenter's owned-node lists — the introduction's elements followed by
each heading section's elements, in document order — are exactly the
container's non-heading children, each appearing in exactly one list:
intro ++ flatten(sections) equals the non-heading child list, and the
lists are pairwise disjoint. -/
theorem segmenter_partition (cs : List HNode)
    (h1 : ∀ c ∈ cs, isElem c = true)
    (h2 : ∀ c ∈ cs, children_heading_free c = true) :
    partition_prop cs := by
  have hflat : (owned_lists cs).flatten =
      (child_locs cs).filter (fun l => ! isHeadingDiv l.2) := by
    rw [owned_lists, List.flatten_cons, intro_elements, child_locs]
    exact segmenter_aux cs h1 h2 [] 0
  have hnd : (owned_lists cs).flatten.Nodup := by
    rw [hflat]
    exact (locate_nodup [] cs 0).filter _
  refine ⟨?_, ?_, ?_⟩
  · intro l hl; rw [hflat]; exact hl
  · intro l hl; rw [hflat] at hl; exact hl
  · exact (List.nodup_flatten.mp hnd).2

theorem segmenter_partition_witness :
    (∀ c ∈ [HNode.elem "div" ["mw-heading"] [HNode.elem "h2" [] []],
            HNode.elem "p" [] [HNode.text "intro"],
            HNode.elem "div" ["mw-heading"] [],
            HNode.elem "ul" [] []], isElem c = true) ∧
    (∀ c ∈ [HNode.elem "div" ["mw-heading"] [HNode.elem "h2" [] []],
            HNode.elem "p" [] [HNode.text "intro"],
            HNode.elem "div" ["mw-heading"] [],
            HNode.elem "ul" [] []], children_heading_free c = true) ∧
    partition_prop [HNode.elem "div" ["mw-heading"] [HNode.elem "h2" [] []],
            HNode.elem "p" [] [HNode.text "intro"],
            HNode.elem "div" ["mw-heading"] [],
            HNode.elem "ul" [] []] := by
  refine ⟨?_, ?_, ?_⟩
  · simp [isElem]
  · simp [children_heading_free, forest_heading_free, isHeadingDiv]
  · exact segmenter_partition _ (by simp [isElem])
      (by simp [children_heading_free, forest_heading_free, isHeadingDiv])
